import Mathlib

/-!
Verification of the taxonomy-annotation and paralog-selection core of the
MSA post-processing backend (file backend/add_tax_to_msa.py).

The Python code is shallowly embedded over a model of Python strings as
lists of characters (PStr), so that every definition is executable and
concrete inputs evaluate by kernel reduction.  Modelling conventions:

* A file's text is given as its list of lines (Python splitlines).
* Python str.strip is strip, str.startswith for the one-character
  patterns used by the code is headIs, str.split with a one-character
  separator is splitChar, str.replace(' ', '_') is underscoreSpaces.
* pandas left merge (how=left) is mergeLeft: for each left row in order,
  one output row per matching right row in right-table order, or a single
  row with a missing (none) right side when there is no match.
* DataFrame construction from ragged rows pads short rows; astype(str)
  renders a padding cell as the text None and a missing merge cell (NaN)
  as the text nan, so padded cells are modelled by the literal string
  None and missing taxonomy fields by the literal string nan.
* The taxonomy table enters the model after loading, as a list of
  string-valued rows; the read_csv call itself (tokenizer, per-column
  dtype inference, duplicate removal over parsed values) is not embedded.
* A raised Python exception is a none / raised result; file IO is
  modelled by returning the records or lines that would be written.
-/

/-- A Python string, modelled as its list of characters. -/
abbrev PStr := List Char

/-- Convenience conversion from a Lean string literal to the model. -/
def pstr (s : String) : PStr := s.data

/-- Python str.strip: remove leading and trailing whitespace. -/
def strip (s : PStr) : PStr :=
  ((s.dropWhile Char.isWhitespace).reverse.dropWhile Char.isWhitespace).reverse

/-- Python s.startswith(c) for a one-character pattern c. -/
def headIs (c : Char) : PStr → Bool
  | [] => false
  | x :: _ => x == c

/-- Worker for splitChar, accumulating the current field reversed. -/
def splitCharGo (c : Char) : PStr → PStr → List PStr
  | [], acc => [acc.reverse]
  | x :: xs, acc =>
    if x == c then acc.reverse :: splitCharGo c xs []
    else splitCharGo c xs (x :: acc)

/-- Python s.split(c) for a one-character separator: always returns at
least one field, and an empty string yields one empty field. -/
def splitChar (c : Char) (s : PStr) : List PStr := splitCharGo c s []

/-- Python s.replace(' ', '_'). -/
def underscoreSpaces (s : PStr) : PStr :=
  s.map fun c => if c == ' ' then '_' else c

/-- Python '|'.join(xs). -/
def joinPipe (xs : List PStr) : PStr := List.intercalate (pstr "|") xs

/-- Three-way lexicographic comparison of strings by code point, the
order Python uses for str comparison (and hence pandas object sorts). -/
def cmpStr : PStr → PStr → Ordering
  | [], [] => .eq
  | [], _ :: _ => .lt
  | _ :: _, [] => .gt
  | a :: as, b :: bs =>
    if a < b then .lt else if b < a then .gt else cmpStr as bs

/-! ## parse_fasta -/

/-- sequences[index] += line where index is always len(sequences)-1:
append a suffix to the last element of the list. -/
def appendLast : List PStr → PStr → List PStr
  | [], _ => []
  | [x], s => [x ++ s]
  | x :: y :: xs, s => x :: appendLast (y :: xs) s

/-- The loop of parse_fasta over the remaining lines, carrying the
accumulated sequences and descriptions.  Branch order follows the source:
comment lines (stripped line starts with #) are skipped, a header line
(starts with >) opens a new record, blank lines are skipped, and any
other line is appended to the open record; if no record is open the
Python code raises IndexError, modelled as none. -/
def parseFastaAux : List PStr → List PStr → List PStr → Option (List PStr × List PStr)
  | [], seqs, descs => some (seqs, descs)
  | l :: rest, seqs, descs =>
    let t := strip l
    if headIs '#' t then parseFastaAux rest seqs descs
    else if headIs '>' t then
      parseFastaAux rest (seqs ++ [[]]) (descs ++ [t.drop 1])
    else if t.isEmpty then parseFastaAux rest seqs descs
    else if seqs.isEmpty then none
    else parseFastaAux rest (appendLast seqs t) descs

/-- parse_fasta on the lines of the input text: a pair of the sequence
list and the description list, or none when the code raises. -/
def parseFasta (lines : List PStr) : Option (List PStr × List PStr) :=
  parseFastaAux lines [] []

/-- A stripped line is a content line: not a comment, not a header, not
blank. -/
def contentB (t : PStr) : Bool :=
  !headIs '#' t && !headIs '>' t && !t.isEmpty

/-- True when no content line occurs before the first header line. -/
def noContentBeforeHeader : List PStr → Bool
  | [] => true
  | l :: rest =>
    let t := strip l
    if headIs '#' t then noContentBeforeHeader rest
    else if headIs '>' t then true
    else if t.isEmpty then noContentBeforeHeader rest
    else false

/-- The claim's error condition: some line of the input is, after
stripping, non-blank, not a comment and not a header, and no header line
occurs before it. -/
def hasContentBeforeHeader (lines : List PStr) : Prop :=
  ∃ pre l post, lines = pre ++ l :: post ∧
    (∀ x ∈ pre, headIs '>' (strip x) = false) ∧
    contentB (strip l) = true

/-- A line that does not open a record. -/
def notHeaderB (l : PStr) : Bool := !headIs '>' (strip l)

/-- The concatenation of the stripped content lines of a line list. -/
def joinContent (ls : List PStr) : PStr :=
  ((ls.map strip).filter contentB).flatten

/-- Number of header lines in a line list. -/
def countHeaders (ls : List PStr) : Nat :=
  (ls.filter fun l => headIs '>' (strip l)).length

/-- Specification view of the sequence accumulation of parse_fasta once a
record with accumulated text cur is open: the open record absorbs content
lines until the next header, and every further header opens a record. -/
def goSeqs : List PStr → PStr → List PStr
  | [], cur => [cur]
  | l :: rest, cur =>
    let t := strip l
    if headIs '#' t then goSeqs rest cur
    else if headIs '>' t then cur :: goSeqs rest []
    else if t.isEmpty then goSeqs rest cur
    else goSeqs rest (cur ++ t)

/-- Specification view of the description accumulation of parse_fasta:
one description per header line, the stripped line without the >. -/
def goDescs : List PStr → List PStr
  | [] => []
  | l :: rest =>
    let t := strip l
    if headIs '#' t then goDescs rest
    else if headIs '>' t then t.drop 1 :: goDescs rest
    else goDescs rest

/-! ## parse_fasta_as_df -/

/-- Delimiter inference of parse_fasta_as_df: pipe when the last
description contains a pipe, tab otherwise. -/
def sepOf (d : PStr) : Char := if d.contains '|' then '|' else '\t'

/-- parse_fasta_as_df: each row is the sequence followed by the header
fields, split on the single delimiter inferred from the last description.
Indexing msa[1][-1] on an empty description list raises, hence none. -/
def parseFastaAsDf (lines : List PStr) : Option (List (List PStr)) :=
  match parseFasta lines with
  | none => none
  | some (seqs, descs) =>
    match descs.getLast? with
    | none => none
    | some dl =>
      some ((seqs.zip descs).map fun p => p.1 :: splitChar (sepOf dl) p.2)

/-! ## to_fasta -/

/-- The header written by to_fasta: prefix a > unless one is present. -/
def addGt (d : PStr) : PStr := if headIs '>' d then d else '>' :: d

/-- to_fasta, modelled as the list of lines written: alternating header
and sequence lines.  Python evaluates seq_id[0] on every header, so an
empty header raises IndexError, modelled as none; zip truncates to the
shorter of the two lists. -/
def toFastaLines (seqList idList : List PStr) : Option (List PStr) :=
  if idList.any List.isEmpty then none
  else some (((idList.map addGt).zip seqList).flatMap fun p => [p.1, p.2])

/-! ## The annotation join -/

/-- One row of the taxonomy table as it stands after loading and
normalization (all cells present).  The loading itself (read_csv at lines
70-74) is not embedded: its behavior rests on the pandas tokenizer and on
per-column dtype inference over parsed numeric values, which this
development does not model; the join and everything after it are proved
over an arbitrary list of string-valued rows. -/
structure TaxRow where
  target : PStr
  evalue : PStr
  taxid : PStr
  taxname : PStr
  taxlineage : PStr
deriving DecidableEq

/-- A parsed alignment record: the sequence, the primary identifier
(header field 0) and the remaining header fields. -/
structure MsaRec where
  seq : PStr
  id : PStr
  extras : List PStr
deriving DecidableEq

/-- The taxonomy rows whose target equals an identifier, in table order. -/
def matchesOf (tax : List TaxRow) (i : PStr) : List TaxRow :=
  tax.filter fun t => t.target == i

/-- The merge output rows owed to one left record: one row per matching
taxonomy row, or a single row with a missing right side. -/
def expandRec (tax : List TaxRow) (r : MsaRec) : List (MsaRec × Option TaxRow) :=
  match matchesOf tax r.id with
  | [] => [(r, none)]
  | ms => ms.map fun t => (r, some t)

/-- pandas left merge of the alignment table with the taxonomy table on
id = target: left order, fan-out per matching right row. -/
def mergeLeft (recs : List MsaRec) (tax : List TaxRow) : List (MsaRec × Option TaxRow) :=
  recs.flatMap (expandRec tax)

/-- astype(str) of a joined taxonomy cell: the field text when the merge
matched, the text nan (stringified NaN) when it did not. -/
def optField (f : TaxRow → PStr) : Option TaxRow → PStr
  | none => pstr "nan"
  | some t => f t

/-- An alignment record as read back from a DataFrame row
seq :: id :: extras. -/
def recOfRow : List PStr → MsaRec
  | [] => ⟨[], [], []⟩
  | [s] => ⟨s, [], []⟩
  | s :: i :: ex => ⟨s, i, ex⟩

/-- Maximum of a list of naturals. -/
def maxList (l : List Nat) : Nat := l.foldr max 0

/-- The merged frame row for one merge pair, materialized as the strings
produced by astype(str) on a frame of width w msa columns: the sequence,
the id, the extra header fields padded with the text None (stringified
DataFrame padding) to the frame width, then the joined evalue, taxid,
taxname and taxlineage columns (target is dropped). -/
def mergedRowStrings (w : Nat) (p : MsaRec × Option TaxRow) : List PStr :=
  p.1.seq :: p.1.id ::
    ((p.1.extras ++ List.replicate (w - 2 - p.1.extras.length) (pstr "None")) ++
     [optField TaxRow.evalue p.2, optField TaxRow.taxid p.2,
      optField TaxRow.taxname p.2, optField TaxRow.taxlineage p.2])

/-- Cell of a row at a column position (label selection on the merged
frame, whose index is positional). -/
def colGet (i : Nat) (row : List PStr) : PStr := row.getD i []

/-- The serialized .tax header of one merged row, following out_columns:
id, taxname, taxid, evalue, the msa columns from position 2 on, then
taxlineage, joined with pipes.  On a frame of msa width w the joined
columns sit at positions w (evalue), w+1 (taxid), w+2 (taxname) and
w+3 (taxlineage). -/
def outHeaderRow (w : Nat) (row : List PStr) : PStr :=
  joinPipe ([colGet 1 row, colGet (w + 2) row, colGet (w + 1) row, colGet w row] ++
    ((row.drop 2).take (w - 2)) ++ [colGet (w + 3) row])

/-- The merged frame m of add_tax_to_msa for one alignment file: parse
the file into a DataFrame, left-merge with the taxonomy table on
id = target, drop target and stringify.  Returns the msa width together
with the materialized rows, or none when parsing raised. -/
def mergedFrame (lines : List PStr) (tax : List TaxRow) : Option (Nat × List (List PStr)) :=
  match parseFastaAsDf lines with
  | none => none
  | some dfRows =>
    let w := maxList (dfRows.map List.length)
    some (w, (mergeLeft (dfRows.map recOfRow) tax).map (mergedRowStrings w))

/-- The annotated records written to the .tax file: for each merged row
in order, its sequence and its serialized header. -/
def addTaxRecords (lines : List PStr) (tax : List TaxRow) : Option (List (PStr × PStr)) :=
  match mergedFrame lines tax with
  | none => none
  | some (w, rows) => some (rows.map fun row => (colGet 0 row, outHeaderRow w row))

/-! ## get_paralogs_fasta -/

/-- Insert x into a list after every element le-below or tied with it. -/
def insertAsc (le : α → α → Bool) (x : α) : List α → List α
  | [] => [x]
  | y :: ys => if le y x then y :: insertAsc le x ys else x :: y :: ys

/-- Stable ascending sort: the order produced by the stable pandas
multi-key sort_values (np.lexsort). -/
def sortAsc (le : α → α → Bool) (l : List α) : List α :=
  l.foldl (fun acc x => insertAsc le x acc) []

/-- The sort key comparison of get_paralogs_fasta: the column named tax
(position 2 of the merged frame, the second header field of the input
record) first, then the column named evalue (position 7, the seventh
header field), each compared as strings. -/
def keyCmp (r s : List PStr) : Ordering :=
  match cmpStr (colGet 2 r) (colGet 2 s) with
  | .eq => cmpStr (colGet 7 r) (colGet 7 s)
  | o => o

/-- Boolean ascending comparator for the sort of get_paralogs_fasta. -/
def rowLeB (r s : List PStr) : Bool :=
  match keyCmp r s with
  | .gt => false
  | _ => true

/-- msa_df.sort_values(['tax', 'evalue']). -/
def sortAnnotated (rows : List (List PStr)) : List (List PStr) :=
  sortAsc rowLeB rows

/-- The column named tax (position 2). -/
def taxColumn (rows : List (List PStr)) : List PStr := rows.map (colGet 2)

/-- The distinct values of the tax column whose value_counts count
exceeds 1. -/
def paralogTaxa (rows : List (List PStr)) : List PStr :=
  (taxColumn rows).dedup.filter fun t => 1 < (taxColumn rows).count t

/-- The Python exceptions get_paralogs_fasta can raise. -/
inductive ParalogError
  /-- ValueError from assigning 15 column names to a frame of another width. -/
  | colMismatch
  /-- KeyError from row label 0 on an empty frame. -/
  | emptyFrame
  /-- IndexError from to_fasta indexing the first character of an empty
  header id. -/
  | emptyHeader
deriving DecidableEq

/-- Outcome of get_paralogs_fasta. -/
inductive ParalogResult
  /-- An exception was raised. -/
  | raised (e : ParalogError)
  /-- The paralog criterion failed: no file is written. -/
  | noOutput
  /-- A file with these (sequence, header) records was written; to_fasta
  prefixes a greater-than sign to each header on writing. -/
  | written (recs : List (PStr × PStr))
deriving DecidableEq

/-- paralog_df: the rows of the sorted frame whose tax-column value is a
paralog taxon (msa_df[msa_df['tax'].isin(paralogs)]). -/
def paralogRows (sorted : List (List PStr)) : List (List PStr) :=
  sorted.filter fun r => (paralogTaxa sorted).contains (colGet 2 r)

/-- The pipe-joined headers of the filtered rows over the columns named
id, tax, taxid, evalue, lineage, i.e. positions 1, 2, 3, 7 and 14. -/
def paralogHeaders (sorted : List (List PStr)) : List PStr :=
  (paralogRows sorted).map fun r =>
    joinPipe [colGet 1 r, colGet 2 r, colGet 3 r, colGet 7 r, colGet 14 r]

/-- The tail of get_paralogs_fasta after the sort: count taxa with
multiplicity above 1 in the tax column, and when more than 2 exist filter
the sorted frame to their rows and write a file.  The expression
[ori_seq] + paralog_df['seq'] is pandas dunder arithmetic of a
one-element list with the filtered Series: numpy broadcasts the single
element (only comparisons length-check), so ori_seq is prefixed
element-wise onto every filtered sequence.  to_fasta then indexes the
first character of each id in [ori_id] + headers, raising IndexError when
one is empty, and zip truncates the id list (one longer) to the sequence
list, so each header is paired with the next record's prefixed sequence
and the last header is dropped. -/
def paralogStep (oriSeq oriId : PStr) (sorted : List (List PStr)) : ParalogResult :=
  if 2 < (paralogTaxa sorted).length then
    if (oriId :: paralogHeaders sorted).any List.isEmpty then .raised .emptyHeader
    else
      .written (((oriId :: paralogHeaders sorted).zip
          ((paralogRows sorted).map fun r => oriSeq ++ colGet 0 r)).map
        fun p => (p.2, p.1))
  else .noOutput

/-- get_paralogs_fasta on the merged, stringified frame: assign the 15
column names (raising unless the frame has width 15), take the query
sequence and id from the row labelled 0 (the first row of the unsorted
frame, raising on an empty frame), sort by (tax, evalue) and run the
selection. -/
def getParalogsFasta (rows : List (List PStr)) : ParalogResult :=
  if rows.all fun r => r.length == 15 then
    if rows.isEmpty then .raised .emptyFrame
    else
      paralogStep (colGet 0 (rows.headD [])) (colGet 1 (rows.headD []))
        (sortAnnotated rows)
  else .raised .colMismatch

/-- The paralog step of add_tax_to_msa on one alignment file: build the
merged frame and hand it to get_paralogs_fasta. -/
def addTaxParalogResult (lines : List PStr) (tax : List TaxRow) : Option ParalogResult :=
  match mergedFrame lines tax with
  | none => none
  | some (_, rows) => some (getParalogsFasta rows)

/-- The ordering the spec asserts for the paralog sort: ascending in the
pair of the joined taxonomy columns, taxname (position 13 of the merged
frame) then evalue (position 11), compared as strings.  Stated from the
spec's words for comparison with the comparator the code uses. -/
def joinedTaxLeB (r s : List PStr) : Bool :=
  match cmpStr (colGet 13 r) (colGet 13 s) with
  | .lt => true
  | .gt => false
  | .eq =>
    match cmpStr (colGet 11 r) (colGet 11 s) with
    | .gt => false
    | _ => true

/-- A concrete merged-frame row: record x with second header field b,
joined to taxonomy name A. -/
def mergedRowX : List PStr :=
  [pstr "SA", pstr "x", pstr "b", pstr "3", pstr "4", pstr "5", pstr "6",
   pstr "7", pstr "8", pstr "9", pstr "10", pstr "E1", pstr "I1", pstr "A", pstr "L1"]

/-- A concrete merged-frame row: record y with second header field a,
joined to taxonomy name B. -/
def mergedRowY : List PStr :=
  [pstr "SB", pstr "y", pstr "a", pstr "3", pstr "4", pstr "5", pstr "6",
   pstr "7", pstr "8", pstr "9", pstr "10", pstr "E2", pstr "I2", pstr "B", pstr "L2"]

/-! ## Basic lemmas about the string model -/

theorem splitCharGo_ne_nil (c : Char) : ∀ (s acc : PStr), splitCharGo c s acc ≠ []
  | [], acc => by simp [splitCharGo]
  | x :: xs, acc => by
    by_cases h : x == c
    · simp [splitCharGo, h]
    · simpa [splitCharGo, h] using splitCharGo_ne_nil c xs (x :: acc)

theorem splitChar_ne_nil (c : Char) (s : PStr) : splitChar c s ≠ [] :=
  splitCharGo_ne_nil c s []

theorem cmpStr_eq_iff : ∀ a b : PStr, cmpStr a b = .eq ↔ a = b
  | [], [] => by simp [cmpStr]
  | [], _ :: _ => by simp [cmpStr]
  | _ :: _, [] => by simp [cmpStr]
  | x :: xs, y :: ys => by
    by_cases hxy : x < y
    · have hne : x ≠ y := ne_of_lt hxy
      simp [cmpStr, hxy, hne]
    · by_cases hyx : y < x
      · have hne : x ≠ y := ne_of_gt hyx
        simp [cmpStr, hxy, hyx, hne]
      · have hxe : x = y := le_antisymm (not_lt.mp hyx) (not_lt.mp hxy)
        subst hxe
        simp [cmpStr, cmpStr_eq_iff xs ys]

theorem cmpStr_gt_iff_lt : ∀ a b : PStr, cmpStr a b = .gt ↔ cmpStr b a = .lt
  | [], [] => by simp [cmpStr]
  | [], _ :: _ => by simp [cmpStr]
  | _ :: _, [] => by simp [cmpStr]
  | x :: xs, y :: ys => by
    by_cases hxy : x < y
    · have hyx : ¬ y < x := lt_asymm hxy
      simp [cmpStr, hxy, hyx]
    · by_cases hyx : y < x
      · simp [cmpStr, hxy, hyx]
      · simp [cmpStr, hxy, hyx, cmpStr_gt_iff_lt xs ys]

theorem cmpStr_lt_trans : ∀ a b c : PStr, cmpStr a b = .lt → cmpStr b c = .lt → cmpStr a c = .lt
  | [], b, c, h1, h2 => by
    cases b with
    | nil => simp [cmpStr] at h1
    | cons y ys =>
      cases c with
      | nil => simp [cmpStr] at h2
      | cons z zs => simp [cmpStr]
  | x :: xs, b, c, h1, h2 => by
    cases b with
    | nil => simp [cmpStr] at h1
    | cons y ys =>
      cases c with
      | nil => simp [cmpStr] at h2
      | cons z zs =>
        by_cases hxy : x < y
        · by_cases hyz : y < z
          · have hxz : x < z := lt_trans hxy hyz
            simp [cmpStr, hxz]
          · by_cases hzy : z < y
            · simp [cmpStr, hyz, hzy] at h2
            · have hyz2 : y = z := le_antisymm (not_lt.mp hzy) (not_lt.mp hyz)
              subst hyz2
              simp [cmpStr, hxy]
        · by_cases hyx : y < x
          · simp [cmpStr, hxy, hyx] at h1
          · have hxy2 : x = y := le_antisymm (not_lt.mp hyx) (not_lt.mp hxy)
            subst hxy2
            simp only [cmpStr, if_neg hxy, if_neg hyx] at h1
            by_cases hyz : x < z
            · simp [cmpStr, hyz]
            · by_cases hzy : z < x
              · simp [cmpStr, hyz, hzy] at h2
              · simp only [cmpStr, if_neg hyz, if_neg hzy] at h2 ⊢
                exact cmpStr_lt_trans xs ys zs h1 h2

theorem keyCmp_eq_iff (r s : List PStr) :
    keyCmp r s = .eq ↔ colGet 2 r = colGet 2 s ∧ colGet 7 r = colGet 7 s := by
  unfold keyCmp
  rcases h : cmpStr (colGet 2 r) (colGet 2 s) with _ | _ | _
  · have : colGet 2 r ≠ colGet 2 s := by
      intro he
      rw [he, (cmpStr_eq_iff _ _).mpr rfl] at h
      cases h
    simp [this]
  · have h2 : colGet 2 r = colGet 2 s := (cmpStr_eq_iff _ _).mp h
    simp [h2, cmpStr_eq_iff]
  · have : colGet 2 r ≠ colGet 2 s := by
      intro he
      rw [he, (cmpStr_eq_iff _ _).mpr rfl] at h
      cases h
    simp [this]

theorem keyCmp_gt_iff_lt (r s : List PStr) : keyCmp r s = .gt ↔ keyCmp s r = .lt := by
  unfold keyCmp
  rcases h : cmpStr (colGet 2 r) (colGet 2 s) with _ | _ | _
  · have h2 : cmpStr (colGet 2 s) (colGet 2 r) = .gt := (cmpStr_gt_iff_lt _ _).mpr h
    simp [h2]
  · have he : colGet 2 r = colGet 2 s := (cmpStr_eq_iff _ _).mp h
    have h2 : cmpStr (colGet 2 s) (colGet 2 r) = .eq := (cmpStr_eq_iff _ _).mpr he.symm
    simp [h2, cmpStr_gt_iff_lt]
  · have h2 : cmpStr (colGet 2 s) (colGet 2 r) = .lt := (cmpStr_gt_iff_lt _ _).mp h
    simp [h2]

theorem keyCmp_lt_trans (r s t : List PStr)
    (h1 : keyCmp r s = .lt) (h2 : keyCmp s t = .lt) : keyCmp r t = .lt := by
  unfold keyCmp at h1 h2 ⊢
  rcases ha : cmpStr (colGet 2 r) (colGet 2 s) with _ | _ | _ <;>
    rcases hb : cmpStr (colGet 2 s) (colGet 2 t) with _ | _ | _ <;>
      simp [ha, hb] at h1 h2 ⊢
  · simp [cmpStr_lt_trans _ _ _ ha hb]
  · have he : colGet 2 s = colGet 2 t := (cmpStr_eq_iff _ _).mp hb
    rw [← he, ha]
  · have he : colGet 2 r = colGet 2 s := (cmpStr_eq_iff _ _).mp ha
    rw [he, hb]
  · have he1 : colGet 2 r = colGet 2 s := (cmpStr_eq_iff _ _).mp ha
    have he2 : colGet 2 s = colGet 2 t := (cmpStr_eq_iff _ _).mp hb
    rw [he1, he2, (cmpStr_eq_iff _ _).mpr rfl]
    exact cmpStr_lt_trans _ _ _ h1 h2

theorem rowLeB_iff (r s : List PStr) : rowLeB r s = true ↔ keyCmp r s ≠ .gt := by
  unfold rowLeB
  rcases h : keyCmp r s with _ | _ | _ <;> simp [h]

theorem rowLeB_total (r s : List PStr) : (rowLeB r s || rowLeB s r) = true := by
  rcases h : keyCmp r s with _ | _ | _
  · have : rowLeB r s = true := (rowLeB_iff r s).mpr (by simp [h])
    simp [this]
  · have : rowLeB r s = true := (rowLeB_iff r s).mpr (by simp [h])
    simp [this]
  · have h2 : keyCmp s r = .lt := (keyCmp_gt_iff_lt r s).mp h
    have : rowLeB s r = true := (rowLeB_iff s r).mpr (by simp [h2])
    simp [this]

theorem rowLeB_trans (r s t : List PStr)
    (h1 : rowLeB r s = true) (h2 : rowLeB s t = true) : rowLeB r t = true := by
  rw [rowLeB_iff] at h1 h2 ⊢
  rcases ha : keyCmp r s with _ | _ | _
  · rcases hb : keyCmp s t with _ | _ | _
    · simp [keyCmp_lt_trans r s t ha hb]
    · rcases (keyCmp_eq_iff s t).mp hb with ⟨e2, e7⟩
      have : keyCmp r t = keyCmp r s := by unfold keyCmp; rw [e2, e7]
      simp [this, ha]
    · exact absurd hb h2
  · rcases hb : keyCmp s t with _ | _ | _
    · rcases (keyCmp_eq_iff r s).mp ha with ⟨e2, e7⟩
      have : keyCmp r t = keyCmp s t := by unfold keyCmp; rw [e2, e7]
      simp [this, hb]
    · rcases (keyCmp_eq_iff r s).mp ha with ⟨e2, e7⟩
      rcases (keyCmp_eq_iff s t).mp hb with ⟨f2, f7⟩
      have : keyCmp r t = .eq := (keyCmp_eq_iff r t).mpr ⟨e2.trans f2, e7.trans f7⟩
      simp [this]
    · exact absurd hb h2
  · exact absurd ha h1

/-! ## The stable ascending sort -/

theorem mem_insertAsc (le : α → α → Bool) (x : α) :
    ∀ (l : List α) (a : α), a ∈ insertAsc le x l ↔ a = x ∨ a ∈ l
  | [], a => by simp [insertAsc]
  | y :: ys, a => by
    simp only [insertAsc]
    by_cases h : le y x = true
    · rw [if_pos h]
      simp only [List.mem_cons, mem_insertAsc le x ys a]
      tauto
    · rw [if_neg h]
      simp only [List.mem_cons]

theorem insertAsc_perm (le : α → α → Bool) (x : α) :
    ∀ l : List α, (insertAsc le x l).Perm (x :: l)
  | [] => by simp [insertAsc]
  | y :: ys => by
    simp only [insertAsc]
    by_cases h : le y x = true
    · rw [if_pos h]
      exact ((insertAsc_perm le x ys).cons y).trans (List.Perm.swap x y ys)
    · rw [if_neg h]

theorem pairwise_insertAsc (le : α → α → Bool)
    (htot : ∀ a b, (le a b || le b a) = true)
    (htr : ∀ a b c, le a b = true → le b c = true → le a c = true) (x : α) :
    ∀ l : List α, l.Pairwise (fun a b => le a b = true) →
      (insertAsc le x l).Pairwise (fun a b => le a b = true)
  | [], _ => by simp [insertAsc]
  | y :: ys, h => by
    rcases List.pairwise_cons.mp h with ⟨hy, hys⟩
    simp only [insertAsc]
    by_cases hle : le y x = true
    · rw [if_pos hle]
      refine List.pairwise_cons.mpr ⟨?_, pairwise_insertAsc le htot htr x ys hys⟩
      intro b hb
      rcases (mem_insertAsc le x ys b).mp hb with rfl | hb2
      · exact hle
      · exact hy b hb2
    · have hxy : le x y = true := by
        have h2 : le y x = true ∨ le x y = true := by simpa using htot y x
        rcases h2 with h1 | h1
        · exact absurd h1 hle
        · exact h1
      rw [if_neg hle]
      refine List.pairwise_cons.mpr ⟨?_, h⟩
      intro b hb
      rcases List.mem_cons.mp hb with rfl | hb2
      · exact hxy
      · exact htr x y b hxy (hy b hb2)

theorem sortAsc_perm_aux (le : α → α → Bool) :
    ∀ (l acc : List α), (l.foldl (fun acc x => insertAsc le x acc) acc).Perm (acc ++ l)
  | [], acc => by simp
  | x :: xs, acc => by
    simp only [List.foldl_cons]
    refine (sortAsc_perm_aux le xs (insertAsc le x acc)).trans ?_
    refine (((insertAsc_perm le x acc).append_right xs)).trans ?_
    exact List.perm_middle.symm

theorem sortAsc_perm (le : α → α → Bool) (l : List α) : (sortAsc le l).Perm l := by
  simpa [sortAsc] using sortAsc_perm_aux le l []

theorem sortAsc_pairwise_aux (le : α → α → Bool)
    (htot : ∀ a b, (le a b || le b a) = true)
    (htr : ∀ a b c, le a b = true → le b c = true → le a c = true) :
    ∀ (l acc : List α), acc.Pairwise (fun a b => le a b = true) →
      (l.foldl (fun acc x => insertAsc le x acc) acc).Pairwise (fun a b => le a b = true)
  | [], _, h => h
  | x :: xs, acc, h => by
    simp only [List.foldl_cons]
    exact sortAsc_pairwise_aux le htot htr xs _ (pairwise_insertAsc le htot htr x acc h)

theorem sortAsc_pairwise (le : α → α → Bool)
    (htot : ∀ a b, (le a b || le b a) = true)
    (htr : ∀ a b c, le a b = true → le b c = true → le a c = true) (l : List α) :
    (sortAsc le l).Pairwise (fun a b => le a b = true) :=
  sortAsc_pairwise_aux le htot htr l [] (by simp)

/-! ## Lemmas about parse_fasta -/

theorem headIs_ne {c d : Char} (hcd : c ≠ d) {t : PStr} (h : headIs c t = true) :
    headIs d t = false := by
  cases t with
  | nil => simp [headIs] at h
  | cons x xs =>
    simp only [headIs, beq_iff_eq] at h ⊢
    subst h
    simpa using hcd

theorem appendLast_append : ∀ (s0 : List PStr) (cur t : PStr),
    appendLast (s0 ++ [cur]) t = s0 ++ [cur ++ t]
  | [], _, _ => rfl
  | x :: s0, cur, t => by
    cases s0 with
    | nil => rfl
    | cons y s0 =>
      show x :: appendLast ((y :: s0) ++ [cur]) t = x :: ((y :: s0) ++ [cur ++ t])
      rw [appendLast_append (y :: s0) cur t]

theorem parseFastaAux_open : ∀ (lines : List PStr) (s0 : List PStr) (cur : PStr)
    (descs : List PStr),
    parseFastaAux lines (s0 ++ [cur]) descs
      = some (s0 ++ goSeqs lines cur, descs ++ goDescs lines)
  | [], s0, cur, descs => by simp [parseFastaAux, goSeqs, goDescs]
  | l :: rest, s0, cur, descs => by
    simp only [parseFastaAux, goSeqs, goDescs]
    split_ifs with h1 h2 h3 h4
    · exact parseFastaAux_open rest s0 cur descs
    · rw [show (s0 ++ [cur]) ++ [([] : PStr)] = (s0 ++ [cur]) ++ [[]] from rfl,
        parseFastaAux_open rest (s0 ++ [cur]) [] (descs ++ [(strip l).drop 1])]
      simp
    · exact parseFastaAux_open rest s0 cur descs
    · exact absurd h4 (by simp)
    · rw [appendLast_append s0 cur (strip l)]
      exact parseFastaAux_open rest s0 (cur ++ strip l) descs

theorem countHeaders_cons (x : PStr) (ls : List PStr) :
    countHeaders (x :: ls)
      = (if headIs '>' (strip x) = true then 1 else 0) + countHeaders ls := by
  by_cases h : headIs '>' (strip x) = true
  · simp [countHeaders, List.filter_cons, h]
    omega
  · simp [countHeaders, List.filter_cons, h]

theorem goDescs_length : ∀ lines : List PStr, (goDescs lines).length = countHeaders lines
  | [] => by simp [goDescs, countHeaders]
  | l :: rest => by
    rw [countHeaders_cons l rest]
    by_cases h1 : headIs '#' (strip l) = true
    · have hh : headIs '>' (strip l) = false := headIs_ne (show ('#' : Char) ≠ '>' by decide) h1
      simp only [goDescs, if_pos h1]
      simp [hh, goDescs_length rest]
    · by_cases h2 : headIs '>' (strip l) = true
      · simp only [goDescs, if_neg h1, if_pos h2]
        simp [h2, goDescs_length rest]
        omega
      · simp only [goDescs, if_neg h1, if_neg h2]
        simp [h2, goDescs_length rest]

theorem goSeqs_length : ∀ (lines : List PStr) (cur : PStr),
    (goSeqs lines cur).length = countHeaders lines + 1
  | [], cur => by simp [goSeqs, countHeaders]
  | l :: rest, cur => by
    rw [countHeaders_cons l rest]
    by_cases h1 : headIs '#' (strip l) = true
    · have hh : headIs '>' (strip l) = false := headIs_ne (show ('#' : Char) ≠ '>' by decide) h1
      simp only [goSeqs, if_pos h1]
      simp [hh, goSeqs_length rest cur]
    · by_cases h2 : headIs '>' (strip l) = true
      · simp only [goSeqs, if_neg h1, if_pos h2]
        simp [h2, goSeqs_length rest []]
        omega
      · by_cases h3 : (strip l).isEmpty = true
        · simp only [goSeqs, if_neg h1, if_neg h2, if_pos h3]
          simp [h2, goSeqs_length rest cur]
        · simp only [goSeqs, if_neg h1, if_neg h2, if_neg h3]
          simp [h2, goSeqs_length rest (cur ++ strip l)]

theorem joinContent_cons (l : PStr) (ls : List PStr) :
    joinContent (l :: ls)
      = (if contentB (strip l) = true then strip l else []) ++ joinContent ls := by
  by_cases h : contentB (strip l) = true <;>
    simp [joinContent, List.filter_cons, h]

theorem goSeqs_zero : ∀ (lines : List PStr) (cur : PStr),
    (goSeqs lines cur)[0]? = some (cur ++ joinContent (lines.takeWhile notHeaderB))
  | [], cur => by simp [goSeqs, joinContent]
  | l :: rest, cur => by
    simp only [goSeqs]
    split_ifs with h1 h2 h3
    · have hh : headIs '>' (strip l) = false := headIs_ne (by decide) h1
      have hc : contentB (strip l) = false := by simp [contentB, h1]
      rw [goSeqs_zero rest cur]
      simp [List.takeWhile_cons, notHeaderB, hh, joinContent_cons, hc]
    · simp [List.takeWhile_cons, notHeaderB, h2, joinContent]
    · have hh : headIs '>' (strip l) = false := by simpa using h2
      have hc : contentB (strip l) = false := by simp [contentB, h3]
      rw [goSeqs_zero rest cur]
      simp [List.takeWhile_cons, notHeaderB, hh, joinContent_cons, hc]
    · have hh : headIs '>' (strip l) = false := by simpa using h2
      have hc : contentB (strip l) = true := by simp [contentB, h1, h2, h3]
      rw [goSeqs_zero rest (cur ++ strip l)]
      simp [List.takeWhile_cons, notHeaderB, hh, joinContent_cons, hc]

theorem goSeqs_get : ∀ (pre : List PStr) (l : PStr) (post : List PStr) (cur : PStr),
    headIs '>' (strip l) = true →
    (goSeqs (pre ++ l :: post) cur)[countHeaders pre + 1]?
      = some (joinContent (post.takeWhile notHeaderB))
  | [], l, post, cur, hl => by
    have hh : headIs '#' (strip l) = false :=
      headIs_ne (show ('>' : Char) ≠ '#' by decide) hl
    simp only [List.nil_append, goSeqs, hh, Bool.false_eq_true, if_false, if_pos hl]
    rw [show countHeaders ([] : List PStr) = 0 from rfl, List.getElem?_cons_succ,
      goSeqs_zero post []]
    simp
  | x :: pre, l, post, cur, hl => by
    rw [countHeaders_cons x pre, List.cons_append]
    by_cases h1 : headIs '#' (strip x) = true
    · have hh : headIs '>' (strip x) = false := headIs_ne (show ('#' : Char) ≠ '>' by decide) h1
      simp only [goSeqs, if_pos h1, hh]
      simpa using goSeqs_get pre l post cur hl
    · by_cases h2 : headIs '>' (strip x) = true
      · simp only [goSeqs, if_neg h1, if_pos h2]
        have heq : 1 + countHeaders pre + 1 = (countHeaders pre + 1) + 1 := by omega
        rw [heq, List.getElem?_cons_succ]
        exact goSeqs_get pre l post [] hl
      · have hh : headIs '>' (strip x) = false := by simpa using h2
        by_cases h3 : (strip x).isEmpty = true
        · simp only [goSeqs, if_neg h1, if_neg h2, if_pos h3, hh]
          simpa using goSeqs_get pre l post cur hl
        · simp only [goSeqs, if_neg h1, if_neg h2, if_neg h3, hh]
          simpa using goSeqs_get pre l post (cur ++ strip x) hl

theorem goDescs_get : ∀ (pre : List PStr) (l : PStr) (post : List PStr),
    headIs '>' (strip l) = true →
    (goDescs (pre ++ l :: post))[countHeaders pre]? = some ((strip l).drop 1)
  | [], l, post, hl => by
    have hh : headIs '#' (strip l) = false :=
      headIs_ne (show ('>' : Char) ≠ '#' by decide) hl
    simp only [List.nil_append, goDescs, hh, Bool.false_eq_true, if_false, if_pos hl]
    simp [countHeaders]
  | x :: pre, l, post, hl => by
    rw [countHeaders_cons x pre, List.cons_append]
    by_cases h1 : headIs '#' (strip x) = true
    · have hh : headIs '>' (strip x) = false := headIs_ne (show ('#' : Char) ≠ '>' by decide) h1
      simp only [goDescs, if_pos h1, hh]
      simpa using goDescs_get pre l post hl
    · by_cases h2 : headIs '>' (strip x) = true
      · simp only [goDescs, if_neg h1, if_pos h2]
        have heq : 1 + countHeaders pre = countHeaders pre + 1 := by omega
        rw [heq, List.getElem?_cons_succ]
        exact goDescs_get pre l post hl
      · have hh : headIs '>' (strip x) = false := by simpa using h2
        simp only [goDescs, if_neg h1, if_neg h2, hh]
        simpa using goDescs_get pre l post hl

theorem parseFasta_none_iff : ∀ lines : List PStr,
    parseFasta lines = none ↔ noContentBeforeHeader lines = false
  | [] => by simp [parseFasta, parseFastaAux, noContentBeforeHeader]
  | l :: rest => by
    by_cases h1 : headIs '#' (strip l) = true
    · have e1 : parseFasta (l :: rest) = parseFasta rest := by
        simp [parseFasta, parseFastaAux, if_pos h1]
      have e2 : noContentBeforeHeader (l :: rest) = noContentBeforeHeader rest := by
        simp [noContentBeforeHeader, if_pos h1]
      rw [e1, e2]
      exact parseFasta_none_iff rest
    · by_cases h2 : headIs '>' (strip l) = true
      · have e1 : parseFasta (l :: rest)
            = some (goSeqs rest [], (strip l).drop 1 :: goDescs rest) := by
          show parseFastaAux (l :: rest) [] [] = _
          simp only [parseFastaAux, if_neg h1, if_pos h2]
          rw [parseFastaAux_open rest [] [] ([] ++ [(strip l).drop 1])]
          simp
        have e2 : noContentBeforeHeader (l :: rest) = true := by
          simp [noContentBeforeHeader, if_neg h1, if_pos h2]
        rw [e1, e2]
        simp
      · by_cases h3 : (strip l).isEmpty = true
        · have h3p : strip l = [] := by simpa using h3
          have e1 : parseFasta (l :: rest) = parseFasta rest := by
            simp [parseFasta, parseFastaAux, if_neg h1, if_neg h2, h3p, headIs]
          have e2 : noContentBeforeHeader (l :: rest) = noContentBeforeHeader rest := by
            simp [noContentBeforeHeader, if_neg h1, if_neg h2, h3p, headIs]
          rw [e1, e2]
          exact parseFasta_none_iff rest
        · have h3p : ¬ strip l = [] := by simpa using h3
          have e1 : parseFasta (l :: rest) = none := by
            simp [parseFasta, parseFastaAux, if_neg h1, if_neg h2, h3p]
          have e2 : noContentBeforeHeader (l :: rest) = false := by
            simp [noContentBeforeHeader, if_neg h1, if_neg h2, h3p]
          rw [e1, e2]
          simp

theorem parseFasta_lengths : ∀ (lines : List PStr) (seqs descs : List PStr),
    parseFasta lines = some (seqs, descs) →
    seqs.length = countHeaders lines ∧ descs.length = countHeaders lines
  | [], seqs, descs, hp => by
    simp only [parseFasta, parseFastaAux, Option.some_inj] at hp
    rcases hp with ⟨rfl, rfl⟩
    exact ⟨by simp [countHeaders], by simp [countHeaders]⟩
  | l :: rest, seqs, descs, hp => by
    rw [countHeaders_cons l rest]
    simp only [parseFasta, parseFastaAux] at hp
    by_cases h1 : headIs '#' (strip l) = true
    · rw [if_pos h1] at hp
      have hh : headIs '>' (strip l) = false := headIs_ne (show ('#' : Char) ≠ '>' by decide) h1
      have := parseFasta_lengths rest seqs descs hp
      simp [hh, this.1, this.2]
    · by_cases h2 : headIs '>' (strip l) = true
      · rw [if_neg h1, if_pos h2] at hp
        rw [parseFastaAux_open rest [] [] ([] ++ [(strip l).drop 1])] at hp
        simp only [List.nil_append, List.singleton_append, Option.some_inj,
          Prod.mk.injEq] at hp
        rcases hp with ⟨hs, hd⟩
        subst hs
        subst hd
        constructor
        · rw [goSeqs_length rest []]
          simp [h2]
          omega
        · simp [h2, goDescs_length rest]
          omega
      · by_cases h3 : (strip l).isEmpty = true
        · rw [if_neg h1, if_neg h2, if_pos h3] at hp
          have hh : headIs '>' (strip l) = false := by simpa using h2
          have := parseFasta_lengths rest seqs descs hp
          simp [hh, this.1, this.2]
        · rw [if_neg h1, if_neg h2, if_neg h3, if_pos (by simp)] at hp
          cases hp

theorem parseFasta_get : ∀ (pre : List PStr) (l : PStr) (post : List PStr)
    (seqs descs : List PStr),
    parseFasta (pre ++ l :: post) = some (seqs, descs) →
    headIs '>' (strip l) = true →
    seqs[countHeaders pre]? = some (joinContent (post.takeWhile notHeaderB)) ∧
      descs[countHeaders pre]? = some ((strip l).drop 1)
  | [], l, post, seqs, descs, hp, hl => by
    rw [List.nil_append] at hp
    have hh : headIs '#' (strip l) = false :=
      headIs_ne (show ('>' : Char) ≠ '#' by decide) hl
    simp only [parseFasta, parseFastaAux, hh, Bool.false_eq_true, if_false,
      if_pos hl] at hp
    rw [parseFastaAux_open post [] [] ([] ++ [(strip l).drop 1])] at hp
    simp only [List.nil_append, List.singleton_append, Option.some_inj,
      Prod.mk.injEq] at hp
    rcases hp with ⟨hs, hd⟩
    subst hs
    subst hd
    simp only [countHeaders, List.filter_nil, List.length_nil]
    constructor
    · rw [goSeqs_zero post []]
      simp
    · simp
  | x :: pre, l, post, seqs, descs, hp, hl => by
    rw [countHeaders_cons x pre]
    rw [List.cons_append] at hp
    simp only [parseFasta, parseFastaAux] at hp
    by_cases h1 : headIs '#' (strip x) = true
    · rw [if_pos h1] at hp
      have hh : headIs '>' (strip x) = false := headIs_ne (show ('#' : Char) ≠ '>' by decide) h1
      have := parseFasta_get pre l post seqs descs hp hl
      simpa [hh] using this
    · by_cases h2 : headIs '>' (strip x) = true
      · rw [if_neg h1, if_pos h2] at hp
        rw [parseFastaAux_open (pre ++ l :: post) [] [] ([] ++ [(strip x).drop 1])] at hp
        simp only [List.nil_append, List.singleton_append, Option.some_inj,
          Prod.mk.injEq] at hp
        rcases hp with ⟨hs, hd⟩
        subst hs
        subst hd
        rw [if_pos h2]
        constructor
        · have heq : 1 + countHeaders pre = countHeaders pre + 1 := by omega
          rw [heq]
          exact goSeqs_get pre l post [] hl
        · have heq : 1 + countHeaders pre = countHeaders pre + 1 := by omega
          rw [heq, List.getElem?_cons_succ]
          exact goDescs_get pre l post hl
      · have hh : headIs '>' (strip x) = false := by simpa using h2
        by_cases h3 : (strip x).isEmpty = true
        · rw [if_neg h1, if_neg h2, if_pos h3] at hp
          have := parseFasta_get pre l post seqs descs hp hl
          simpa [hh] using this
        · rw [if_neg h1, if_neg h2, if_neg h3, if_pos (by simp)] at hp
          cases hp

theorem hasContentBeforeHeader_iff : ∀ lines : List PStr,
    hasContentBeforeHeader lines ↔ noContentBeforeHeader lines = false
  | [] => by
    constructor
    · rintro ⟨pre, l, post, heq, -, -⟩
      simp at heq
    · intro h
      simp [noContentBeforeHeader] at h
  | l :: rest => by
    simp only [noContentBeforeHeader]
    by_cases h1 : headIs '#' (strip l) = true
    · rw [if_pos h1]
      rw [← hasContentBeforeHeader_iff rest]
      constructor
      · rintro ⟨pre, x, post, heq, hpre, hx⟩
        cases pre with
        | nil =>
          simp only [List.nil_append, List.cons.injEq] at heq
          rcases heq with ⟨rfl, rfl⟩
          simp [contentB, h1] at hx
        | cons p pre =>
          simp only [List.cons_append, List.cons.injEq] at heq
          rcases heq with ⟨rfl, heq⟩
          exact ⟨pre, x, post, heq, fun y hy => hpre y (List.mem_cons_of_mem _ hy), hx⟩
      · rintro ⟨pre, x, post, heq, hpre, hx⟩
        refine ⟨l :: pre, x, post, by rw [heq, List.cons_append], ?_, hx⟩
        intro y hy
        rcases List.mem_cons.mp hy with rfl | hy2
        · exact headIs_ne (show ('#' : Char) ≠ '>' by decide) h1
        · exact hpre y hy2
    · by_cases h2 : headIs '>' (strip l) = true
      · rw [if_neg h1, if_pos h2]
        constructor
        · rintro ⟨pre, x, post, heq, hpre, hx⟩
          cases pre with
          | nil =>
            simp only [List.nil_append, List.cons.injEq] at heq
            rcases heq with ⟨rfl, rfl⟩
            simp [contentB, h2] at hx
          | cons p pre =>
            simp only [List.cons_append, List.cons.injEq] at heq
            rcases heq with ⟨rfl, heq⟩
            exact absurd (hpre l (List.mem_cons_self l pre)) (by simp [h2])
        · intro h
          cases h
      · by_cases h3 : (strip l).isEmpty = true
        · have hh : headIs '>' (strip l) = false := by simpa using h2
          rw [if_neg h1, if_neg h2, if_pos h3]
          rw [← hasContentBeforeHeader_iff rest]
          constructor
          · rintro ⟨pre, x, post, heq, hpre, hx⟩
            cases pre with
            | nil =>
              simp only [List.nil_append, List.cons.injEq] at heq
              rcases heq with ⟨rfl, rfl⟩
              simp [contentB, h3] at hx
            | cons p pre =>
              simp only [List.cons_append, List.cons.injEq] at heq
              rcases heq with ⟨rfl, heq⟩
              exact ⟨pre, x, post, heq, fun y hy => hpre y (List.mem_cons_of_mem _ hy), hx⟩
          · rintro ⟨pre, x, post, heq, hpre, hx⟩
            refine ⟨l :: pre, x, post, by rw [heq, List.cons_append], ?_, hx⟩
            intro y hy
            rcases List.mem_cons.mp hy with rfl | hy2
            · exact hh
            · exact hpre y hy2
        · rw [if_neg h1, if_neg h2, if_neg h3]
          constructor
          · intro _
            rfl
          · intro _
            exact ⟨[], l, rest, rfl, by simp, by simp [contentB, h1, h2, h3]⟩

/-! ## Lemmas about the annotation join -/

theorem mergeLeft_cons (r : MsaRec) (l : List MsaRec) (tax : List TaxRow) :
    mergeLeft (r :: l) tax = expandRec tax r ++ mergeLeft l tax :=
  List.flatMap_cons r l (expandRec tax)

theorem mergeLeft_append (a b : List MsaRec) (tax : List TaxRow) :
    mergeLeft (a ++ b) tax = mergeLeft a tax ++ mergeLeft b tax :=
  List.flatMap_append a b (expandRec tax)

theorem expandRec_of_no_match (tax : List TaxRow) (r : MsaRec)
    (h : matchesOf tax r.id = []) : expandRec tax r = [(r, none)] := by
  simp [expandRec, h]

theorem expandRec_of_matches (tax : List TaxRow) (r : MsaRec)
    (h : matchesOf tax r.id ≠ []) :
    expandRec tax r = (matchesOf tax r.id).map fun t => (r, some t) := by
  unfold expandRec
  rcases he : matchesOf tax r.id with _ | ⟨m, ms⟩
  · exact absurd he h
  · rfl

theorem length_expandRec (tax : List TaxRow) (r : MsaRec) :
    (expandRec tax r).length = max 1 (matchesOf tax r.id).length := by
  rcases he : matchesOf tax r.id with _ | ⟨m, ms⟩
  · simp [expandRec, he]
  · simp [expandRec, he]

theorem fst_of_mem_expandRec (tax : List TaxRow) (r : MsaRec) (p : MsaRec × Option TaxRow)
    (h : p ∈ expandRec tax r) : p.1 = r := by
  unfold expandRec at h
  rcases he : matchesOf tax r.id with _ | ⟨m, ms⟩ <;> rw [he] at h
  · simp at h
    rw [h]
  · rcases List.mem_map.mp h with ⟨t, -, hpt⟩
    rw [← hpt]

theorem mergeLeft_length_ones (tax : List TaxRow) :
    ∀ l : List MsaRec, (∀ r ∈ l, (matchesOf tax r.id).length = 1) →
      (mergeLeft l tax).length = l.length
  | [], _ => rfl
  | r :: l, h => by
    rw [mergeLeft_cons, List.length_append, length_expandRec, h r (List.mem_cons_self r l),
      mergeLeft_length_ones tax l fun s hs => h s (List.mem_cons_of_mem _ hs)]
    simp only [Nat.max_self, List.length_cons]
    omega

theorem mergeLeft_ne_nil (recs : List MsaRec) (tax : List TaxRow) (h : recs ≠ []) :
    mergeLeft recs tax ≠ [] := by
  rcases recs with _ | ⟨r, l⟩
  · exact absurd rfl h
  · rw [mergeLeft_cons]
    intro he
    rcases List.append_eq_nil.mp he with ⟨h1, -⟩
    rcases hm : matchesOf tax r.id with _ | ⟨m, ms⟩
    · rw [expandRec_of_no_match tax r hm] at h1
      cases h1
    · rw [expandRec_of_matches tax r (by rw [hm]; simp)] at h1
      rw [hm] at h1
      cases h1

theorem fst_of_mem_mergeLeft (recs : List MsaRec) (tax : List TaxRow)
    (p : MsaRec × Option TaxRow) (h : p ∈ mergeLeft recs tax) : p.1 ∈ recs := by
  rcases List.mem_flatMap.mp h with ⟨r, hr, hpr⟩
  rw [fst_of_mem_expandRec tax r p hpr]
  exact hr

/-! ## Lemmas about list maxima and row shapes -/

theorem maxList_cons (x : Nat) (l : List Nat) : maxList (x :: l) = max x (maxList l) := rfl

theorem le_maxList : ∀ (l : List Nat) (a : Nat), a ∈ l → a ≤ maxList l
  | x :: xs, a, h => by
    rw [maxList_cons]
    rcases List.mem_cons.mp h with rfl | h2
    · exact le_max_left _ _
    · exact le_trans (le_maxList xs a h2) (le_max_right _ _)

theorem length_mergedRowStrings (w : Nat) (p : MsaRec × Option TaxRow)
    (hw : 2 ≤ w) (he : p.1.extras.length ≤ w - 2) :
    (mergedRowStrings w p).length = w + 4 := by
  simp [mergedRowStrings]
  omega

theorem colGet_mergedRow (w : Nat) (p : MsaRec × Option TaxRow)
    (hw : 2 ≤ w) (he : p.1.extras.length ≤ w - 2) :
    colGet 0 (mergedRowStrings w p) = p.1.seq ∧
    colGet 1 (mergedRowStrings w p) = p.1.id ∧
    colGet w (mergedRowStrings w p) = optField TaxRow.evalue p.2 ∧
    colGet (w + 1) (mergedRowStrings w p) = optField TaxRow.taxid p.2 ∧
    colGet (w + 2) (mergedRowStrings w p) = optField TaxRow.taxname p.2 ∧
    colGet (w + 3) (mergedRowStrings w p) = optField TaxRow.taxlineage p.2 ∧
    ((mergedRowStrings w p).drop 2).take (w - 2)
      = p.1.extras ++ List.replicate (w - 2 - p.1.extras.length) (pstr "None") := by
  obtain ⟨k, rfl⟩ : ∃ k, w = k + 2 := ⟨w - 2, by omega⟩
  have hkE : (p.1.extras ++ List.replicate (k + 2 - 2 - p.1.extras.length)
      (pstr "None")).length = k := by
    simp
    omega
  unfold mergedRowStrings colGet
  refine ⟨rfl, rfl, ?_, ?_, ?_, ?_, ?_⟩
  · rw [show k + 2 = (k + 1) + 1 from rfl, List.getD_cons_succ, List.getD_cons_succ,
      List.getD_append_right _ _ _ _ (le_of_eq hkE), hkE]
    simp
  · rw [show k + 2 + 1 = (k + 2) + 1 from rfl, List.getD_cons_succ, List.getD_cons_succ,
      List.getD_append_right _ _ _ _ (by omega), hkE]
    have hi : k + 1 - k = 1 := by omega
    rw [hi]
    simp
  · rw [show k + 2 + 2 = (k + 3) + 1 from rfl, List.getD_cons_succ, List.getD_cons_succ,
      List.getD_append_right _ _ _ _ (by omega), hkE]
    have hi : k + 2 - k = 2 := by omega
    rw [hi]
    simp
  · rw [show k + 2 + 3 = (k + 4) + 1 from rfl, List.getD_cons_succ, List.getD_cons_succ,
      List.getD_append_right _ _ _ _ (by omega), hkE]
    have hi : k + 3 - k = 3 := by omega
    rw [hi]
    simp
  · rw [List.drop_succ_cons, List.drop_succ_cons, List.drop_zero]
    have hi : k + 2 - 2 = k := by omega
    rw [hi]
    refine List.take_left' ?_
    simp
    omega

/-! ## Lemmas about the writer and the paralog selector -/

theorem zip_map_flatMap : ∀ (descs seqs : List PStr),
    ((descs.map addGt).zip seqs).flatMap (fun p => [p.1, p.2])
      = (seqs.zip descs).flatMap fun p => [addGt p.2, p.1]
  | [], seqs => by cases seqs <;> simp
  | d :: ds, seqs => by
    cases seqs with
    | nil => simp
    | cons s ss => simp [zip_map_flatMap ds ss]

theorem mem_paralogTaxa (rows : List (List PStr)) (t : PStr) :
    t ∈ paralogTaxa rows ↔ t ∈ taxColumn rows ∧ 1 < (taxColumn rows).count t := by
  unfold paralogTaxa
  rw [List.mem_filter, List.mem_dedup]
  simp

theorem parseFastaAsDf_spec (lines : List PStr) (dfRows : List (List PStr))
    (h : parseFastaAsDf lines = some dfRows) :
    dfRows ≠ [] ∧ ∀ row ∈ dfRows, 2 ≤ row.length := by
  unfold parseFastaAsDf at h
  split at h
  · cases h
  · rename_i seqs descs hp
    split at h
    · cases h
    · rename_i dl hl
      simp only [Option.some_inj] at h
      subst h
      have hlen := parseFasta_lengths lines seqs descs hp
      have hdne : descs ≠ [] := by
        intro he
        rw [he] at hl
        cases hl
      constructor
      · intro he
        have hz := List.map_eq_nil_iff.mp he
        have hzl : (seqs.zip descs).length = 0 := by rw [hz]; rfl
        rw [List.length_zip, hlen.1, hlen.2] at hzl
        simp at hzl
        exact hdne (List.length_eq_zero.mp (hlen.2.trans hzl))
      · intro row hrow
        rcases List.mem_map.mp hrow with ⟨p, -, hpe⟩
        rw [← hpe]
        have hsne := splitChar_ne_nil (sepOf dl) p.2
        rcases he : splitChar (sepOf dl) p.2 with _ | ⟨f, fs⟩
        · exact absurd he hsne
        · simp [he]

theorem mergedFrame_spec (lines : List PStr) (tax : List TaxRow) (w : Nat)
    (rows : List (List PStr)) (h : mergedFrame lines tax = some (w, rows)) :
    2 ≤ w ∧ rows ≠ [] ∧ ∀ row ∈ rows, row.length = w + 4 := by
  unfold mergedFrame at h
  rcases hdf : parseFastaAsDf lines with _ | dfRows <;> rw [hdf] at h
  · cases h
  · simp only [Option.some_inj, Prod.mk.injEq] at h
    rcases h with ⟨hw, hrows⟩
    subst hw
    subst hrows
    rcases parseFastaAsDf_spec lines dfRows hdf with ⟨hne, hrl⟩
    rcases List.exists_mem_of_ne_nil dfRows hne with ⟨row0, hrow0⟩
    have hw2 : 2 ≤ maxList (dfRows.map List.length) :=
      le_trans (hrl row0 hrow0)
        (le_maxList _ _ (List.mem_map_of_mem List.length hrow0))
    have hex : ∀ r ∈ dfRows.map recOfRow,
        r.extras.length ≤ maxList (dfRows.map List.length) - 2 := by
      intro r hr
      rcases List.mem_map.mp hr with ⟨row, hrow, hre⟩
      have hle : row.length ≤ maxList (dfRows.map List.length) :=
        le_maxList _ _ (List.mem_map_of_mem List.length hrow)
      have h2 : 2 ≤ row.length := hrl row hrow
      rcases row with _ | ⟨a, row1⟩
      · simp at h2
      · rcases row1 with _ | ⟨b, row2⟩
        · simp at h2
        · rw [← hre]
          simp only [recOfRow]
          simp at hle
          omega
    refine ⟨hw2, ?_, ?_⟩
    · intro he
      have hz := List.map_eq_nil_iff.mp he
      exact mergeLeft_ne_nil (dfRows.map recOfRow) tax
        (by rw [Ne, List.map_eq_nil_iff]; exact hne) hz
    · intro row hrow
      rcases List.mem_map.mp hrow with ⟨p, hp, hpe⟩
      rw [← hpe]
      exact length_mergedRowStrings _ p hw2
        (hex p.1 (fst_of_mem_mergeLeft _ tax p hp))

theorem paralogStep_ne_colMismatch (oriSeq oriId : PStr) (sorted : List (List PStr)) :
    paralogStep oriSeq oriId sorted ≠ .raised .colMismatch := by
  unfold paralogStep
  split_ifs with hp hh <;> simp

theorem getParalogsFasta_colMismatch_iff (rows : List (List PStr)) (m : Nat)
    (hne : rows ≠ []) (hlen : ∀ row ∈ rows, row.length = m) :
    (getParalogsFasta rows = .raised .colMismatch ↔ m ≠ 15) := by
  have hie : rows.isEmpty = false := by
    rw [Bool.eq_false_iff, Ne, List.isEmpty_iff]
    exact hne
  by_cases hm : m = 15
  · subst hm
    have hall : rows.all (fun r => r.length == 15) = true := by
      rw [List.all_eq_true]
      intro x hx
      simp [hlen x hx]
    unfold getParalogsFasta
    rw [if_pos hall, if_neg (by rw [hie]; simp)]
    simp [paralogStep_ne_colMismatch]
  · rcases rows with _ | ⟨r0, rs⟩
    · exact absurd rfl hne
    · have hall : (r0 :: rs).all (fun r => r.length == 15) = false := by
        rw [List.all_eq_false]
        refine ⟨r0, List.mem_cons_self _ _, ?_⟩
        simp [hlen r0 (List.mem_cons_self _ _), hm]
      unfold getParalogsFasta
      rw [hall]
      simp [hm]

/-! ## Claims -/

/-- Claim C1: for an alignment decomposed as pre ++ r :: post (N records)
and a taxonomy table in which r's primary identifier matches M > 1
distinct taxonomy rows while every other record's identifier matches
exactly one row, the left join produces exactly N - 1 + M annotated
records; r expands to M rows, one per matching taxonomy row in table
order, each carrying r itself (hence r's sequence), and every other
record expands to exactly one row. -/
theorem annotation_join_fanout (pre post : List MsaRec) (r : MsaRec)
    (tax : List TaxRow) (M : Nat) (_hnd : tax.Nodup) (hM : 1 < M)
    (hr : (matchesOf tax r.id).length = M)
    (h1 : ∀ s ∈ pre ++ post, (matchesOf tax s.id).length = 1) :
    (mergeLeft (pre ++ r :: post) tax).length = (pre ++ r :: post).length - 1 + M ∧
    mergeLeft (pre ++ r :: post) tax
      = mergeLeft pre tax ++ expandRec tax r ++ mergeLeft post tax ∧
    expandRec tax r = (matchesOf tax r.id).map (fun t => (r, some t)) ∧
    (expandRec tax r).length = M ∧
    ∀ p ∈ expandRec tax r, p.1 = r := by
  have hmm : matchesOf tax r.id ≠ [] := by
    intro he
    rw [he] at hr
    simp at hr
    omega
  have hex := expandRec_of_matches tax r hmm
  have hlen : (expandRec tax r).length = M := by
    rw [hex, List.length_map, hr]
  have hsplit : mergeLeft (pre ++ r :: post) tax
      = mergeLeft pre tax ++ expandRec tax r ++ mergeLeft post tax := by
    rw [mergeLeft_append, mergeLeft_cons, List.append_assoc]
  refine ⟨?_, hsplit, hex, hlen, fun p hp => fst_of_mem_expandRec tax r p hp⟩
  rw [hsplit, List.length_append, List.length_append, hlen,
    mergeLeft_length_ones tax pre fun s hs => h1 s (List.mem_append_left _ hs),
    mergeLeft_length_ones tax post fun s hs => h1 s (List.mem_append_right _ hs),
    List.length_append, List.length_cons]
  omega

/-- Witness for C1 at a two-record alignment whose second record's
identifier matches two distinct taxonomy rows. -/
theorem annotation_join_fanout_witness :
    (mergeLeft (([⟨pstr "S1", pstr "a", []⟩] : List MsaRec)
        ++ (⟨pstr "S0", pstr "b", []⟩ : MsaRec) :: [])
      [⟨pstr "a", pstr "1", pstr "2", pstr "3", pstr "4"⟩,
       ⟨pstr "b", pstr "5", pstr "6", pstr "7", pstr "8"⟩,
       ⟨pstr "b", pstr "9", pstr "10", pstr "11", pstr "12"⟩]).length
      = (([⟨pstr "S1", pstr "a", []⟩] : List MsaRec)
          ++ (⟨pstr "S0", pstr "b", []⟩ : MsaRec) :: []).length - 1 + 2 :=
  (annotation_join_fanout [⟨pstr "S1", pstr "a", []⟩] [] ⟨pstr "S0", pstr "b", []⟩
    [⟨pstr "a", pstr "1", pstr "2", pstr "3", pstr "4"⟩,
     ⟨pstr "b", pstr "5", pstr "6", pstr "7", pstr "8"⟩,
     ⟨pstr "b", pstr "9", pstr "10", pstr "11", pstr "12"⟩] 2
    (by decide) (by decide) (by decide) (by decide)).1

/-- Claim C2: a record whose primary identifier matches no taxonomy row
produces exactly one annotated record in the join, with a missing right
side, and all four taxonomy fields of a missing right side render as the
literal string nan. -/
theorem missing_match_sentinel (pre post : List MsaRec) (r : MsaRec)
    (tax : List TaxRow) (h : matchesOf tax r.id = []) :
    mergeLeft (pre ++ r :: post) tax
      = mergeLeft pre tax ++ (r, (none : Option TaxRow)) :: mergeLeft post tax ∧
    expandRec tax r = [(r, none)] ∧
    optField TaxRow.taxname (none : Option TaxRow) = pstr "nan" ∧
    optField TaxRow.taxid (none : Option TaxRow) = pstr "nan" ∧
    optField TaxRow.evalue (none : Option TaxRow) = pstr "nan" ∧
    optField TaxRow.taxlineage (none : Option TaxRow) = pstr "nan" := by
  have hex := expandRec_of_no_match tax r h
  refine ⟨?_, hex, rfl, rfl, rfl, rfl⟩
  rw [mergeLeft_append, mergeLeft_cons, hex]
  simp

/-- Witness for C2: a single unmatched record joined against an empty
table yields exactly its sentinel row. -/
theorem missing_match_sentinel_witness :
    mergeLeft ([] ++ (⟨pstr "S0", pstr "q", []⟩ : MsaRec) :: []) []
      = mergeLeft [] [] ++ ((⟨pstr "S0", pstr "q", []⟩ : MsaRec), (none : Option TaxRow))
          :: mergeLeft [] [] :=
  (missing_match_sentinel [] [] ⟨pstr "S0", pstr "q", []⟩ [] (by decide)).1

/-- Claim C5 counterexample: on an alignment whose headers decompose into
different field counts, the serialized header of the shorter record gains
a padding field rendered None that is not among its pre-annotation extra
header fields, so the claimed field sequence id, taxname, taxid, evalue,
own extras, taxlineage does not hold as stated: record x has the single
extra field e1, yet its header is not the pipe join of those six fields. -/
theorem tax_header_padding_counterexample :
    addTaxRecords [pstr ">x|e1", pstr "SA", pstr ">y|e1|e2", pstr "SB"] []
      = some [(pstr "SA", pstr "x|nan|nan|nan|e1|None|nan"),
              (pstr "SB", pstr "y|nan|nan|nan|e1|e2|nan")] ∧
    pstr "x|nan|nan|nan|e1|None|nan"
      ≠ joinPipe [pstr "x", pstr "nan", pstr "nan", pstr "nan", pstr "e1", pstr "nan"] := by
  decide

/-- Claim C5 amended: the serialized header of an annotated record is id,
taxname, taxid, evalue, then the record's pre-annotation extra header
fields in their original order padded with the string None (stringified
DataFrame padding) up to the frame width, then taxlineage, joined with
pipes, with every field in its string form (the sentinel nan for a
missing match); when all headers of a file have the same field count the
padding is empty and the claimed order holds exactly. -/
theorem tax_header_serialization_amended (w : Nat) (p : MsaRec × Option TaxRow)
    (hw : 2 ≤ w) (he : p.1.extras.length ≤ w - 2) :
    outHeaderRow w (mergedRowStrings w p)
      = joinPipe ([p.1.id, optField TaxRow.taxname p.2, optField TaxRow.taxid p.2,
          optField TaxRow.evalue p.2]
          ++ (p.1.extras ++ List.replicate (w - 2 - p.1.extras.length) (pstr "None"))
          ++ [optField TaxRow.taxlineage p.2]) := by
  rcases colGet_mergedRow w p hw he with ⟨-, h1, hev, hti, htn, htl, hex⟩
  unfold outHeaderRow
  rw [h1, hev, hti, htn, htl, hex]

/-- Witness for C5 amended at a record with one extra field on a frame of
width four. -/
theorem tax_header_serialization_amended_witness :
    outHeaderRow 4 (mergedRowStrings 4
        ((⟨pstr "S", pstr "x", [pstr "e1"]⟩ : MsaRec), (none : Option TaxRow)))
      = pstr "x|nan|nan|nan|e1|None|nan" := by
  have h := tax_header_serialization_amended 4
    (⟨pstr "S", pstr "x", [pstr "e1"]⟩, none) (by decide) (by decide)
  rw [h]
  decide

/-- Claim C6: for a non-empty parsed alignment the header-field delimiter
is chosen by inspecting only the last record's header, pipe when that
header contains a pipe and tab otherwise, and this single delimiter is
used to split every header in the file. -/
theorem delimiter_from_last_header (lines : List PStr) (seqs descs : List PStr) (dl : PStr)
    (hp : parseFasta lines = some (seqs, descs)) (hl : descs.getLast? = some dl) :
    parseFastaAsDf lines
      = some ((seqs.zip descs).map fun p =>
          p.1 :: splitChar (if dl.contains '|' then '|' else '\t') p.2) := by
  simp [parseFastaAsDf, hp, hl, sepOf]

/-- Witness for C6: a file whose last header contains a pipe is split on
pipes throughout, including its tab-bearing first header. -/
theorem delimiter_from_last_header_witness :
    parseFastaAsDf [pstr ">a\tb", pstr "AA", pstr ">c|d", pstr "CC"]
      = some [[pstr "AA", pstr "a\tb"], [pstr "CC", pstr "c", pstr "d"]] := by
  have h := delimiter_from_last_header [pstr ">a\tb", pstr "AA", pstr ">c|d", pstr "CC"]
    [pstr "AA", pstr "CC"] [pstr "a\tb", pstr "c|d"] (pstr "c|d") (by decide) (by decide)
  rw [h]
  decide

/-- Claim C7: parsing fails exactly when some line that strips to a
non-blank, non-comment, non-header line occurs before any header line;
otherwise it succeeds, every header line introduces exactly one record
(the record count equals the header-line count), and the record at the
position of a given header line carries that header stripped of its >
and, as sequence, the concatenation of the stripped non-comment,
non-blank lines following it up to the next header. -/
theorem parse_error_and_record_structure (lines : List PStr) :
    (parseFasta lines = none ↔ hasContentBeforeHeader lines) ∧
    (¬ hasContentBeforeHeader lines →
      ∃ seqs descs, parseFasta lines = some (seqs, descs) ∧
        seqs.length = countHeaders lines ∧ descs.length = countHeaders lines ∧
        ∀ pre l post, lines = pre ++ l :: post → headIs '>' (strip l) = true →
          seqs[countHeaders pre]? = some (joinContent (post.takeWhile notHeaderB)) ∧
          descs[countHeaders pre]? = some ((strip l).drop 1)) := by
  constructor
  · rw [parseFasta_none_iff lines, hasContentBeforeHeader_iff lines]
  · intro hnc
    rcases hsome : parseFasta lines with _ | ⟨seqs, descs⟩
    · exact absurd ((hasContentBeforeHeader_iff lines).mpr
        ((parseFasta_none_iff lines).mp hsome)) hnc
    · refine ⟨seqs, descs, rfl, (parseFasta_lengths lines seqs descs hsome).1,
        (parseFasta_lengths lines seqs descs hsome).2, ?_⟩
      intro pre l post hsplit hl
      rw [hsplit] at hsome
      exact parseFasta_get pre l post seqs descs hsome hl

/-- Witness for C7: a content line before the first header makes parsing
fail, and a well-formed two-line file parses. -/
theorem parse_error_and_record_structure_witness :
    parseFasta [pstr "AB", pstr ">a"] = none ∧
    parseFasta [pstr ">a", pstr "AB"] ≠ none := by
  constructor
  · rw [(parse_error_and_record_structure [pstr "AB", pstr ">a"]).1,
      hasContentBeforeHeader_iff]
    decide
  · rcases (parse_error_and_record_structure [pstr ">a", pstr "AB"]).2
        (by rw [hasContentBeforeHeader_iff]; decide) with ⟨s, d, hp, -⟩
    rw [hp]
    simp

/-- Claim C9 counterexample: the text whose header line is a bare >
parses successfully to one record with an empty header, but the writer
indexes the first character of every header, so it raises on the empty
header instead of reproducing the parsed pairing. -/
theorem round_trip_empty_header_counterexample :
    parseFasta [pstr ">", pstr "AAA"] = some ([pstr "AAA"], [[]]) ∧
    toFastaLines [pstr "AAA"] [[]] = none := by
  decide

/-- Claim C9 amended: for an alignment that parses successfully and whose
parsed headers are all non-empty, the writer succeeds and emits the
records as alternating header and sequence lines in the original order,
each header being the parsed one with a > prefixed when absent; the pair
at the position of each original header line is the parsed header
(stripped line without the >) together with the concatenation of the
original record's stripped content lines. -/
theorem round_trip_amended (lines : List PStr) (seqs descs : List PStr)
    (hp : parseFasta lines = some (seqs, descs)) (hne : ∀ d ∈ descs, d ≠ []) :
    toFastaLines seqs descs
      = some ((seqs.zip descs).flatMap fun p => [addGt p.2, p.1]) ∧
    seqs.length = descs.length ∧
    ∀ pre l post, lines = pre ++ l :: post → headIs '>' (strip l) = true →
      (seqs.zip descs)[countHeaders pre]?
        = some (joinContent (post.takeWhile notHeaderB), (strip l).drop 1) := by
  have hany : descs.any List.isEmpty = false := by
    rw [List.any_eq_false]
    intro d hd
    simp [List.isEmpty_iff, hne d hd]
  refine ⟨?_, ?_, ?_⟩
  · unfold toFastaLines
    rw [hany]
    simp only [Bool.false_eq_true, if_false]
    rw [zip_map_flatMap descs seqs]
  · rw [(parseFasta_lengths lines seqs descs hp).1,
      (parseFasta_lengths lines seqs descs hp).2]
  · intro pre l post hsplit hl
    rw [hsplit] at hp
    rcases parseFasta_get pre l post seqs descs hp hl with ⟨hs, hd⟩
    rw [List.getElem?_zip_eq_some]
    exact ⟨hs, hd⟩

/-- Witness for C9 amended: a two-record file round-trips, the second
header keeping its already-present > unduplicated. -/
theorem round_trip_amended_witness :
    toFastaLines [pstr "AAA", pstr "CC"] [pstr "a", pstr ">b"]
      = some [pstr ">a", pstr "AAA", pstr ">b", pstr "CC"] := by
  have h := round_trip_amended [pstr ">a", pstr "AAA", pstr ">>b", pstr "CC"]
    [pstr "AAA", pstr "CC"] [pstr "a", pstr ">b"] (by decide) (by decide)
  rw [h.1]
  decide

/-- Claim C4 counterexample: the merged frame the pipeline builds for
this two-record alignment is [mergedRowX, mergedRowY], the paralog sort
returns them in the order [mergedRowY, mergedRowX] because it compares
the column named tax, which is position 2 (the second header field b
versus a), and that output is not ascending in the joined taxonomy pair:
the adjacent joined taxnames are B then A, so joinedTaxLeB fails on the
first adjacent pair. -/
theorem paralog_sort_key_counterexample :
    mergedFrame [pstr ">x|b|3|4|5|6|7|8|9|10", pstr "SA",
        pstr ">y|a|3|4|5|6|7|8|9|10", pstr "SB"]
        [⟨pstr "x", pstr "E1", pstr "I1", pstr "A", pstr "L1"⟩,
         ⟨pstr "y", pstr "E2", pstr "I2", pstr "B", pstr "L2"⟩]
      = some (11, [mergedRowX, mergedRowY]) ∧
    sortAnnotated [mergedRowX, mergedRowY] = [mergedRowY, mergedRowX] ∧
    joinedTaxLeB mergedRowY mergedRowX = false := by
  decide

/-- Claim C4 amended: paralog selection sorts the annotated records
ascending by the pair of the columns named tax and evalue, which sit at
positions 2 and 7 of the merged frame and are the record's second and
seventh pre-annotation header fields, not the joined taxonomy columns
(positions 13 and 11); the comparison is string-lexical with no numeric
parsing, and the per-taxon counts for the paralog criterion are computed
over that same position-2 column. -/
theorem paralog_sort_amended (rows : List (List PStr)) :
    (sortAnnotated rows).Perm rows ∧
    List.Pairwise (fun r s => rowLeB r s = true) (sortAnnotated rows) ∧
    ∀ t, t ∈ paralogTaxa rows ↔
      t ∈ rows.map (colGet 2) ∧ 1 < (rows.map (colGet 2)).count t := by
  exact ⟨sortAsc_perm rowLeB rows,
    sortAsc_pairwise rowLeB rowLeB_total rowLeB_trans rows,
    fun t => mem_paralogTaxa rows t⟩

/-- Claim C3 (code bug): on this well-shaped annotated input, three taxa
(the second header fields A, B, C) have multiplicity two, so the paralog
criterion triggers and a paralog file is written; but it is not the
claimed one.  [ori_seq] + paralog_df['seq'] at line 125 is pandas
element-wise addition, which broadcasts the one-element list over the
six-row Series, so every written sequence is the query sequence
concatenated with a paralog sequence; the id list [ori_id] + headers has
seven entries against six sequences, so to_fasta's zip drops the last
paralog header and pairs every sequence with the preceding record's id.
The first written record carries the query id but not the query
sequence, refuting the claim that the returned records start with the
unmodified query record. -/
theorem paralog_broadcast_shift :
    addTaxParalogResult
        [pstr ">q|q|3|4|5|6|7|8|9|10", pstr "QQ",
         pstr ">a1|A|3|4|5|6|E1|8|9|10", pstr "S1",
         pstr ">a2|A|3|4|5|6|E2|8|9|10", pstr "S2",
         pstr ">b1|B|3|4|5|6|E3|8|9|10", pstr "S3",
         pstr ">b2|B|3|4|5|6|E4|8|9|10", pstr "S4",
         pstr ">c1|C|3|4|5|6|E5|8|9|10", pstr "S5",
         pstr ">c2|C|3|4|5|6|E6|8|9|10", pstr "S6"] []
      = some (ParalogResult.written
          [(pstr "QQS1", pstr "q"),
           (pstr "QQS2", pstr "a1|A|3|E1|nan"),
           (pstr "QQS3", pstr "a2|A|3|E2|nan"),
           (pstr "QQS4", pstr "b1|B|3|E3|nan"),
           (pstr "QQS5", pstr "b2|B|3|E4|nan"),
           (pstr "QQS6", pstr "c1|C|3|E5|nan")]) ∧
    (pstr "QQS1", pstr "q") ≠ (pstr "QQ", pstr "q") := by
  decide

/-- Claim C10 counterexample: an alignment mixing a two-field header with
a ten-field header still yields a merged frame of 15 columns, because
pandas pads the short row, so paralog selection runs to completion and
returns a clean no-output signal even though not every header decomposes
into exactly ten fields. -/
theorem paralog_column_count_counterexample :
    addTaxParalogResult [pstr ">q|x", pstr "AAA",
        pstr ">h|1|2|3|4|5|6|7|8|9", pstr "CCC"] []
      = some ParalogResult.noOutput ∧
    (splitChar '|' (pstr "q|x")).length ≠ 10 := by
  decide

/-- Claim C10 amended: paralog selection assigns 15 column names to the
merged frame, so it raises the column-count ValueError exactly when the
frame width w (one more than the widest header's field count) differs
from 11, i.e. when the widest header does not decompose into exactly ten
fields; headers shorter than the widest are padded rather than rejected,
and the frame is never empty. -/
theorem paralog_column_count_amended (lines : List PStr) (tax : List TaxRow)
    (w : Nat) (rows : List (List PStr)) (h : mergedFrame lines tax = some (w, rows)) :
    (getParalogsFasta rows = ParalogResult.raised ParalogError.colMismatch ↔ w ≠ 11) ∧
    rows ≠ [] ∧
    ∀ dfRows, parseFastaAsDf lines = some dfRows →
      w = maxList (dfRows.map List.length) := by
  rcases mergedFrame_spec lines tax w rows h with ⟨hw2, hne, hlen⟩
  refine ⟨?_, hne, ?_⟩
  · rw [getParalogsFasta_colMismatch_iff rows (w + 4) hne hlen]
    omega
  · intro dfRows hdf
    unfold mergedFrame at h
    rw [hdf] at h
    simp only [Option.some_inj, Prod.mk.injEq] at h
    exact h.1.symm

/-- Witness for C10 amended: a one-record alignment with a two-field
header gives a frame of width three, and the column assignment raises. -/
theorem paralog_column_count_amended_witness :
    getParalogsFasta [[pstr "S", pstr "a", pstr "b",
        pstr "nan", pstr "nan", pstr "nan", pstr "nan"]]
      = ParalogResult.raised ParalogError.colMismatch := by
  have h := paralog_column_count_amended [pstr ">a|b", pstr "S"] [] 3
    [[pstr "S", pstr "a", pstr "b", pstr "nan", pstr "nan", pstr "nan", pstr "nan"]]
    (by decide)
  exact h.1.mpr (by decide)
